import Mathlib

set_option maxRecDepth 2048

/-!
Verification of the fingerprinting / grouping / keep-selection engine of
`media_duplicate_cleaner.py` and `media_duplicate_cleaner_interactive.py`.

The two scripts work one directory at a time.  We model a single directory as
a `Dir`: the `os.listdir` listing (a list of file names) together with the
filesystem oracles the code consults (`os.path.isfile`, `os.path.getsize`,
`PIL.Image.open` dimensions, `os.path.getmtime`, and the ffprobe-based
`get_video_info`).  Since every path handled by `process_directory` lives in
the one directory, we identify a path with its base name (its `os.path.basename`).

Modelling notes, stated once here:
* Python floats are modelled by `ℚ` (sizes, mtimes, durations, frame rates).
  `round(x, 2)` is modelled as round-half-to-even of `x * 100` over `100`,
  mirroring Python's `round`.
* Filenames are assumed newline-free, so Python's `.` (which excludes `\n`)
  and `$` (end, or before a trailing `\n`) coincide with plain end-of-string
  matching in the regex embeddings.
* Python's `\d` matches any Unicode decimal digit; files considered here only
  carry ASCII digits, and the embedding uses ASCII `Char.isDigit`.
* `os.path.getsize` / `os.path.getmtime` are modelled as total oracles; the
  scripts' `try/except` fallbacks for them are not exercised by the claims.
-/

namespace MediaCleaner

/-! ## os.path.splitext -/

/-- `os.path.splitext` on a base name: the extension starts at the last dot,
provided some non-dot character precedes that dot (leading dots never start
an extension). Returns `(stem, extension)`. -/
def splitext (s : String) : String × String :=
  match ((List.range s.toList.length).filter
      (fun i => s.toList.getD i ' ' == '.' && !((s.toList.take i).all (fun c => c == '.')))).getLast? with
  | some i => (String.mk (s.toList.take i), String.mk (s.toList.drop i))
  | none => (s, "")

def stemOf (f : String) : String := (splitext f).1

def extOf (f : String) : String := (splitext f).2

/-- `str.lower()` applied to an extension (the extensions compared are ASCII). -/
def lowerExt (f : String) : String := String.mk ((extOf f).toList.map Char.toLower)

/-! ## The copy-suffix regexes

`process_directory` uses `re.compile(r'^(.*?)[（(](\d+)[）)]$')` on the stem
(`matchNumberPattern` below, the lazy group meaning the shortest base wins),
and `find_best_file_to_keep` uses `re.search(r'[（(]\d+[）)]', filename)` on
the whole base name (`hasCopySuffix` below). -/

def isOpenParen (c : Char) : Bool := c == '(' || c == '（'

def isCloseParen (c : Char) : Bool := c == ')' || c == '）'

/-- Does `cs` consist exactly of an opening parenthesis, one or more digits,
and a closing parenthesis?  Returns the digit run. -/
def copySuffixSplit (cs : List Char) : Option (List Char) :=
  match cs with
  | [] => none
  | o :: rest =>
    if isOpenParen o then
      match rest.reverse with
      | [] => none
      | c :: dsRev =>
        let ds := dsRev.reverse
        if isCloseParen c && !ds.isEmpty && ds.all Char.isDigit then some ds else none
    else none

/-- `re.match(r'^(.*?)[（(](\d+)[）)]$', ·)` over the characters of a stem:
the lazy `(.*?)` makes the first (shortest) base whose remainder is exactly
`[（(]\d+[）)]` win.  Returns `(base, digits)`. -/
def matchNum : List Char → Option (List Char × List Char)
  | [] => none
  | c :: rest =>
    match copySuffixSplit (c :: rest) with
    | some ds => some ([], ds)
    | none => (matchNum rest).map (fun p => (c :: p.1, p.2))

def matchNumberPattern (s : String) : Option (String × String) :=
  (matchNum s.toList).map (fun p => (String.mk p.1, String.mk p.2))

/-- Lines 142–146: from a matched image file, the origin path
`base_name + os.path.splitext(file)[1]` (identified with its base name). -/
def originOf (f : String) : Option String :=
  (matchNumberPattern (stemOf f)).map (fun p => p.1 ++ extOf f)

/-- Is there a `[（(]\d+[）)]` token starting at the head of `cs`?  (A digit
run bounded by `+` backtracking succeeds only at the maximal run, since a
digit is never a closing parenthesis.) -/
def tokenAt (cs : List Char) : Bool :=
  match cs with
  | [] => false
  | o :: rest =>
    let ds := rest.takeWhile Char.isDigit
    isOpenParen o && !ds.isEmpty &&
      (match rest.drop ds.length with
       | c :: _ => isCloseParen c
       | [] => false)

def searchToken : List Char → Bool
  | [] => false
  | c :: rest => tokenAt (c :: rest) || searchToken rest

/-- `bool(re.search(r'[（(]\d+[）)]', filename))` from `file_priority` in
`find_best_file_to_keep`: an unanchored search over the whole base name. -/
def hasCopySuffix (filename : String) : Bool := searchToken filename.toList

/-! ## Python rounding

`round(x, 2)` rounds half to even.  A float rounded to two decimals is
exactly determined by its integer number of hundredths, so we represent the
rounded value by that integer (two rounded values are equal iff their
hundredths are).  `divRound2` computes it by integer arithmetic so that it
evaluates in the kernel; `roundHalfEven` is the rational-level meaning, and
`pyRound2_eq` proves the two agree. -/

/-- Round half to even on `ℚ`. -/
def roundHalfEven (q : ℚ) : ℤ :=
  if q - (⌊q⌋ : ℚ) < 1/2 then ⌊q⌋
  else if 1/2 < q - (⌊q⌋ : ℚ) then ⌊q⌋ + 1
  else if ⌊q⌋ % 2 = 0 then ⌊q⌋ else ⌊q⌋ + 1

/-- Round half to even of `100 * (n / d)` (for `0 < d`), by integer arithmetic. -/
def divRound2 (n : ℤ) (d : ℕ) : ℤ :=
  if 2 * Int.emod (100 * n) (d : ℤ) < (d : ℤ) then Int.ediv (100 * n) (d : ℤ)
  else if (d : ℤ) < 2 * Int.emod (100 * n) (d : ℤ) then Int.ediv (100 * n) (d : ℤ) + 1
  else if Int.ediv (100 * n) (d : ℤ) % 2 = 0 then Int.ediv (100 * n) (d : ℤ)
  else Int.ediv (100 * n) (d : ℤ) + 1

/-- Python `round(q, 2)`, as an integer number of hundredths. -/
def pyRound2 (q : ℚ) : ℤ := divRound2 q.num q.den

theorem divRound2_eq (n : ℤ) (d : ℕ) (hd : 0 < d) :
    divRound2 n d = roundHalfEven ((n : ℚ) / (d : ℚ) * 100) := by
  have hdQ : (0 : ℚ) < (d : ℚ) := by exact_mod_cast hd
  have hdZ : (0 : ℤ) < (d : ℤ) := by exact_mod_cast hd
  set m : ℤ := 100 * n with hm
  set f : ℤ := Int.ediv m (d : ℤ) with hf
  set r : ℤ := Int.emod m (d : ℤ) with hr
  have hdecomp : (d : ℤ) * f + r = m := Int.ediv_add_emod m (d : ℤ)
  have hr0 : 0 ≤ r := Int.emod_nonneg m (by omega)
  have hrd : r < (d : ℤ) := Int.emod_lt_of_pos m hdZ
  have hq : (n : ℚ) / (d : ℚ) * 100 = (m : ℚ) / (d : ℚ) := by
    push_cast [hm]; ring
  have hval : (m : ℚ) / (d : ℚ) = (f : ℚ) + (r : ℚ) / (d : ℚ) := by
    have hmq : (m : ℚ) = (d : ℚ) * (f : ℚ) + (r : ℚ) := by exact_mod_cast hdecomp.symm
    rw [hmq]; field_simp; ring
  have hfloor : ⌊(m : ℚ) / (d : ℚ)⌋ = f := by
    rw [hval]
    have h0 : (0 : ℚ) ≤ (r : ℚ) / (d : ℚ) := by
      apply div_nonneg _ (le_of_lt hdQ); exact_mod_cast hr0
    have h1 : (r : ℚ) / (d : ℚ) < 1 := by
      rw [div_lt_one hdQ]; exact_mod_cast hrd
    rw [add_comm, Int.floor_add_int]
    have h2 : ⌊(r : ℚ) / (d : ℚ)⌋ = 0 := Int.floor_eq_zero_iff.mpr ⟨h0, h1⟩
    omega
  have hfrac : (m : ℚ) / (d : ℚ) - (f : ℚ) = (r : ℚ) / (d : ℚ) := by
    rw [hval]; ring
  have hlt : ((r : ℚ) / (d : ℚ) < 1/2) ↔ (2 * r < (d : ℤ)) := by
    rw [div_lt_div_iff hdQ (by norm_num : (0:ℚ) < 2)]
    constructor
    · intro h
      have h2 : (2 * r : ℚ) < (d : ℚ) := by push_cast; linarith
      exact_mod_cast h2
    · intro h
      have h2 : (2 * r : ℚ) < (d : ℚ) := by exact_mod_cast h
      push_cast at h2 ⊢; linarith
  have hgt : ((1:ℚ)/2 < (r : ℚ) / (d : ℚ)) ↔ ((d : ℤ) < 2 * r) := by
    rw [div_lt_div_iff (by norm_num : (0:ℚ) < 2) hdQ]
    constructor
    · intro h
      have h2 : (d : ℚ) < (2 * r : ℚ) := by push_cast; linarith
      exact_mod_cast h2
    · intro h
      have h2 : (d : ℚ) < (2 * r : ℚ) := by exact_mod_cast h
      push_cast at h2 ⊢; linarith
  unfold divRound2 roundHalfEven
  rw [hq, hfloor, hfrac, ← hm, ← hf, ← hr]
  by_cases h1 : 2 * r < (d : ℤ)
  · rw [if_pos h1, if_pos (hlt.mpr h1)]
  · rw [if_neg h1, if_neg (fun h => h1 (hlt.mp h))]
    by_cases h2 : (d : ℤ) < 2 * r
    · rw [if_pos h2, if_pos (hgt.mpr h2)]
    · rw [if_neg h2, if_neg (fun h => h2 (hgt.mp h))]

theorem pyRound2_eq (q : ℚ) : pyRound2 q = roundHalfEven (q * 100) := by
  unfold pyRound2
  rw [divRound2_eq q.num q.den q.pos, Rat.num_div_den]

/-! ## get_video_info -/

/-- Python `int(s)` over the characters of `s`: an optional sign followed by
one or more ASCII digits.  (Python additionally strips surrounding whitespace
and allows `_` separators; neither occurs in an ffprobe `r_frame_rate`.) -/
def natOfDigits (ds : List Char) : ℕ :=
  ds.foldl (fun acc c => acc * 10 + (c.toNat - '0'.toNat)) 0

def parsePyIntL (cs : List Char) : Option ℤ :=
  match cs with
  | '-' :: ds => if !ds.isEmpty && ds.all Char.isDigit then some (-(natOfDigits ds : ℤ)) else none
  | '+' :: ds => if !ds.isEmpty && ds.all Char.isDigit then some ((natOfDigits ds : ℤ)) else none
  | ds => if !ds.isEmpty && ds.all Char.isDigit then some ((natOfDigits ds : ℤ)) else none

/-- Python `str.split('/')`. -/
def splitOnChar (c : Char) : List Char → List (List Char)
  | [] => [[]]
  | x :: xs =>
    if x == c then [] :: splitOnChar c xs
    else
      match splitOnChar c xs with
      | h :: t => (x :: h) :: t
      | [] => [[x]]

/-- Lines 57–62: `num, denom = map(int, frame_rate_str.split('/'))`, then
`num / denom if denom != 0 else 0`, with `ValueError`/`ZeroDivisionError`
mapped to `0`.  (Unpacking fails — `ValueError` — unless the split has
exactly two parts, each a valid int.) -/
def parseFrameRate (s : String) : ℚ :=
  match splitOnChar '/' s.toList with
  | [a, b] =>
    match parsePyIntL a, parsePyIntL b with
    | some n, some den => if den = 0 then 0 else (n : ℚ) / (den : ℚ)
    | _, _ => 0
  | _ => 0

/-- The `v:0` stream of the ffprobe JSON, after `json.loads`: the `duration`
field (`some` when present and float-parseable) and the `r_frame_rate` field
(`none` when absent; the code defaults it to `"0/1"`). -/
structure StreamInfo where
  duration : Option ℚ
  rFrameRate : Option String

/-- `get_video_info` after a successful probe run (exit code 0, JSON parsed):
`None` when `duration` is missing, otherwise duration and computed frame rate. -/
def getVideoInfo (st : StreamInfo) : Option (ℚ × ℚ) :=
  match st.duration with
  | none => none
  | some d => some (d, parseFrameRate (st.rFrameRate.getD "0/1"))

/-! ## A directory

`process_directory` works on one directory; the filesystem state it consults
is captured by the listing (in `os.listdir` order) and per-name oracles. -/

structure Dir where
  /-- `os.listdir(directory)`, in listing order. -/
  listing : List String
  /-- `os.path.isfile(full_path)`. -/
  isFile : String → Bool
  /-- `os.path.getsize(file)` in bytes. -/
  size : String → Nat
  /-- `Image.open(file).size`: `some (width, height)`, or `none` when the
  image cannot be opened/decoded (the `except` branch that skips the file). -/
  dims : String → Option (Nat × Nat)
  /-- `os.path.getmtime(file)`. -/
  mtime : String → ℚ
  /-- `get_video_info(file)`: `some (duration, frame_rate)` or `None`. -/
  probe : String → Option (ℚ × ℚ)

def imageExts : List String := [".jpg", ".jpeg", ".png", ".gif", ".bmp", ".webp"]

def videoExts : List String := [".mp4", ".mkv", ".avi", ".mov", ".wmv", ".flv", ".webm"]

/-- Lines 105–112: files whose lower-cased extension is an image extension. -/
def imageFiles (d : Dir) : List String :=
  d.listing.filter (fun f => d.isFile f && decide (lowerExt f ∈ imageExts))

/-- Lines 105–112: the `elif` branch — not an image extension, a video one. -/
def videoFiles (d : Dir) : List String :=
  d.listing.filter
    (fun f => d.isFile f && !(decide (lowerExt f ∈ imageExts)) && decide (lowerExt f ∈ videoExts))

/-! ## Python's `min` with a key function

`min` scans left to right keeping the current best and replacing it only when
a strictly smaller key appears, so the first element attaining the minimal
key is returned.  `ltb` is the strict lexicographic comparison of key tuples. -/

def pickBy {α : Type} (ltb : α → α → Prop) [DecidableRel ltb] (x : α) : List α → α
  | [] => x
  | y :: tl => pickBy ltb (if ltb y x then y else x) tl

def pyMinBy {α : Type} (ltb : α → α → Prop) [DecidableRel ltb] : List α → Option α
  | [] => none
  | x :: xs => some (pickBy ltb x xs)

/-! ## Priority tuples (Python tuple comparison, `False < True`) -/

/-- Strict lexicographic order on `(filename length, mtime)` — the image
pass's key `lambda x: (len(os.path.basename(x)), os.path.getmtime(x))`. -/
def prioLt2 (a b : ℕ × ℚ) : Prop := a.1 < b.1 ∨ (a.1 = b.1 ∧ a.2 < b.2)

/-- Strict lexicographic order on `(has_copy_suffix, filename length, mtime)`
— `file_priority` in `find_best_file_to_keep`. -/
def prioLt3 (a b : Bool × ℕ × ℚ) : Prop :=
  (a.1 = false ∧ b.1 = true) ∨ (a.1 = b.1 ∧ prioLt2 a.2 b.2)

instance prioLt2.decRel : DecidableRel prioLt2 := fun a b => by
  unfold prioLt2; infer_instance

instance prioLt3.decRel : DecidableRel prioLt3 := fun a b => by
  unfold prioLt3 prioLt2; infer_instance

/-- The image pass's selection key (line 135).  A base name equals the file
name in our single-directory model; `String.length` counts characters, as
Python `len` does. -/
def imagePrio (d : Dir) (f : String) : ℕ × ℚ := (f.length, d.mtime f)

/-- `file_priority` (lines 84–95).  The `except` branch that substitutes
`float('inf')` for an unreadable mtime is not modelled (`mtime` is total). -/
def videoPrio (d : Dir) (f : String) : Bool × ℕ × ℚ :=
  (hasCopySuffix f, f.length, d.mtime f)

def imageLt (d : Dir) (a b : String) : Prop := prioLt2 (imagePrio d a) (imagePrio d b)

def videoLt (d : Dir) (a b : String) : Prop := prioLt3 (videoPrio d a) (videoPrio d b)

instance imageLt.decRel (d : Dir) : DecidableRel (imageLt d) := fun a b => by
  unfold imageLt; infer_instance

instance videoLt.decRel (d : Dir) : DecidableRel (videoLt d) := fun a b => by
  unfold videoLt; infer_instance

/-- `find_best_file_to_keep(files, video_metadata)` (the metadata argument is
unused by the source): `min(files, key=file_priority)`, `None` on `[]`. -/
def findBestFileToKeep (d : Dir) (files : List String) : Option String :=
  pyMinBy (videoLt d) files

/-! ## Grouping by a fingerprint key

`defaultdict(list)` / `dict` keep keys in insertion order, so the groups are
iterated in order of first occurrence of the key; within a group, members
keep the order in which they were appended (their order in the input list).
Files whose key is `none` (an image that failed to decode) are excluded. -/

def keysInOrder {κ : Type} [DecidableEq κ] (keyOf : String → Option κ) (files : List String) :
    List κ :=
  files.foldl
    (fun acc f =>
      match keyOf f with
      | none => acc
      | some k => if k ∈ acc then acc else acc ++ [k]) []

def groupsOf {κ : Type} [DecidableEq κ] (keyOf : String → Option κ) (files : List String) :
    List (κ × List String) :=
  (keysInOrder keyOf files).map (fun k => (k, files.filter (fun f => decide (keyOf f = some k))))

/-- One entry of `image_duplicate_groups` / `video_duplicate_groups`:
`{'key': key, 'keep': file_to_keep, 'delete': files_to_delete}`, with the
group's member list carried alongside. -/
structure DupGroup (κ : Type) where
  key : κ
  members : List String
  keep : String
  delete : List String
  deriving DecidableEq

/-- Lines 132–137 / 195–200: keep the groups with `len(files) > 1`, pick the
member minimizing the selection key, delete the rest. -/
def dupGroupsOf {κ : Type} [DecidableEq κ] (keyOf : String → Option κ)
    (ltb : String → String → Prop) [DecidableRel ltb] (files : List String) :
    List (DupGroup κ) :=
  (groupsOf keyOf files).filterMap
    (fun kg =>
      if 1 < kg.2.length then
        (pyMinBy ltb kg.2).map
          (fun keep =>
            { key := kg.1, members := kg.2, keep := keep,
              delete := kg.2.filter (fun f => f ≠ keep) })
      else none)

/-- Lines 119–128: fingerprint `(size, width, height)`; a file that fails to
open or decode is excluded (`none`). -/
def imgKeyOf (d : Dir) (f : String) : Option (ℕ × ℕ × ℕ) :=
  (d.dims f).map (fun wh => (d.size f, wh.1, wh.2))

/-- Lines 168–191: fingerprint `(size_mb, duration, frame_rate)`, each value
rounded to two decimals (represented in hundredths); on probe failure the
key degrades to `(size_mb, None, None)`. -/
def videoKeyOf (d : Dir) (f : String) : ℤ × Option ℤ × Option ℤ :=
  match d.probe f with
  | some md => (divRound2 (d.size f : ℤ) 1048576, some (pyRound2 md.1), some (pyRound2 md.2))
  | none => (divRound2 (d.size f : ℤ) 1048576, none, none)

/-- Lines 132–137: image duplicate groups, keep chosen by
`min(files, key=lambda x: (len(os.path.basename(x)), os.path.getmtime(x)))`. -/
def imageDupGroups (d : Dir) : List (DupGroup (ℕ × ℕ × ℕ)) :=
  dupGroupsOf (imgKeyOf d) (imageLt d) (imageFiles d)

/-- Lines 195–200: video duplicate groups, keep chosen by
`find_best_file_to_keep`. -/
def videoDupGroups (d : Dir) : List (DupGroup (ℤ × Option ℤ × Option ℤ)) :=
  dupGroupsOf (fun f => some (videoKeyOf d f)) (videoLt d) (videoFiles d)

/-! ## Copy groups (`media_duplicate_cleaner.py`, lines 139–150) -/

structure CopyGroup where
  origin : String
  copies : List String
  deriving DecidableEq

/-- `image_copies_groups[original_file]['copies'].append(file)`: an
insertion-ordered association list keyed by the origin path. -/
def assocAppend {κ : Type} [DecidableEq κ] :
    List (κ × List String) → κ → String → List (κ × List String)
  | [], k, v => [(k, [v])]
  | (k', vs) :: rest, k, v =>
    if k' = k then (k', vs ++ [v]) :: rest else (k', vs) :: assocAppend rest k v

def copyFold (files : List String) : List (String × List String) :=
  files.foldl
    (fun acc f =>
      match originOf f with
      | some o => assocAppend acc o f
      | none => acc) []

/-- Line 150: `[v for v in image_copies_groups.values() if v['origin'] and
v['copies']]` — the origin string must be truthy (non-empty); no check that
the origin file exists. -/
def imageCopyGroups (d : Dir) : List CopyGroup :=
  (copyFold (imageFiles d)).filterMap
    (fun p => if p.1 ≠ "" ∧ p.2 ≠ [] then some { origin := p.1, copies := p.2 } else none)

/-! ## Same-name image/video groups (lines 151–164) -/

structure CrossGroup where
  videos : List String
  images : List String
  deriving DecidableEq

/-- Lines 151–164: group `image_files + video_files` by stem; emit a group
when the stem has at least one video and at least one image. -/
def crossGroups (d : Dir) : List CrossGroup :=
  (groupsOf (fun f => some (stemOf f)) (imageFiles d ++ videoFiles d)).filterMap
    (fun kg =>
      if (kg.2.any (fun f => decide (lowerExt f ∈ videoExts))) &&
          (kg.2.any (fun f => decide (lowerExt f ∈ imageExts))) then
        some { videos := kg.2.filter (fun f => decide (lowerExt f ∈ videoExts)),
               images := kg.2.filter (fun f => decide (lowerExt f ∈ imageExts)) }
      else none)

/-- `main`, lines 329–341: the deletion loop of the same-name pass removes
exactly `group['images']`. -/
def crossDeleteCandidates (g : CrossGroup) : List String := g.images

/-! ## The non-interactive deletion passes (`main`, lines 266–374)

`main` runs four independent deletion passes; the files it attempts to
remove, in order, are the concatenation of the four candidate lists. -/

def cleanerDeletionSequence (d : Dir) : List String :=
  ((imageDupGroups d).map (fun g => g.delete)).join ++
    ((imageCopyGroups d).map (fun g => g.copies)).join ++
    ((crossGroups d).map (fun g => g.images)).join ++
    ((videoDupGroups d).map (fun g => g.delete)).join

/-! ## The interactive variant (`media_duplicate_cleaner_interactive.py`)

Its video pass is identical to the non-interactive one.  Its image pass
(lines 130–147) only groups a numbered copy when the computed origin is
itself among the image files; each group's dict value accumulates the origin
(once) and the numbered files.  We carry the numbered files of each key
separately (`copies`), alongside the member list the code builds. -/

def assocGet {κ β : Type} [DecidableEq κ] : List (κ × β) → κ → Option β
  | [], _ => none
  | (k', v) :: rest, k => if k' = k then some v else assocGet rest k

def assocSet {κ β : Type} [DecidableEq κ] : List (κ × β) → κ → β → List (κ × β)
  | [], k, v => [(k, v)]
  | (k', v') :: rest, k, v =>
    if k' = k then (k', v) :: rest else (k', v') :: assocSet rest k v

/-- The updated value of `image_groups[key]` when file `f` (a numbered copy
of `origin`) is processed: the origin is appended first if absent, then `f`;
the numbered files of the key are tracked alongside (second component). -/
def interNewVal (st1 : List ((String × String) × (List String × List String)))
    (key : String × String) (origin f : String) : List String × List String :=
  ((if origin ∈ ((assocGet st1 key).getD ([], [])).1
      then ((assocGet st1 key).getD ([], [])).1
      else ((assocGet st1 key).getD ([], [])).1 ++ [origin]) ++ [f],
    ((assocGet st1 key).getD ([], [])).2 ++ [f])

/-- One step of the interactive image loop (lines 135–147), acting on the
accumulated `image_groups` association list and the global
`image_numbered_files_to_delete` list. -/
def interStep (images : List String)
    (st : List ((String × String) × (List String × List String)) × List String)
    (f : String) :
    List ((String × String) × (List String × List String)) × List String :=
  match matchNumberPattern (stemOf f) with
  | some bd =>
    if bd.1 ++ extOf f ∈ images then
      (assocSet st.1 (bd.1, extOf f) (interNewVal st.1 (bd.1, extOf f) (bd.1 ++ extOf f) f),
        st.2 ++ [f])
    else st
  | none => st

def interCopyFold (images : List String) :
    List ((String × String) × (List String × List String)) × List String :=
  images.foldl (interStep images) ([], [])

/-- The interactive variant's `image_groups` for a directory. -/
def interGroups (d : Dir) : List ((String × String) × (List String × List String)) :=
  (interCopyFold (imageFiles d)).1

/-- The interactive variant's `image_numbered_files_to_delete`. -/
def interNumbered (d : Dir) : List String :=
  (interCopyFold (imageFiles d)).2

/-- `video_files_to_delete`: per-group delete lists, concatenated in group
order (lines 199–204).  (Shared with the non-interactive variant.) -/
def videoDeletes (d : Dir) : List String :=
  ((videoDupGroups d).map (fun g => g.delete)).join

/-- `list(set(...))`: the distinct elements (modelled in first-occurrence
order; a Python `set` fixes no order, and none of the stated properties
depend on one). -/
def pySetList (l : List String) : List String :=
  l.foldl (fun acc x => if x ∈ acc then acc else acc ++ [x]) []

/-- Line 212: `files_to_delete = list(set(image_numbered_files_to_delete +
video_files_to_delete))`. -/
def interFilesToDelete (d : Dir) : List String :=
  pySetList (interNumbered d ++ videoDeletes d)

/-! ## Properties of `pickBy` / `pyMinBy`

Python's `min` returns the first element attaining the minimal key.  We
characterize the result by a decomposition of the scanned list: everything
strictly before the result has strictly greater key, everything after is not
strictly smaller. -/

theorem pickBy_mem {α : Type} (ltb : α → α → Prop) [DecidableRel ltb] :
    ∀ (l : List α) (x : α), pickBy ltb x l ∈ x :: l := by
  intro l
  induction l with
  | nil => intro x; simp [pickBy]
  | cons y tl ih =>
    intro x
    by_cases h : ltb y x
    · have hm := ih y
      simp only [pickBy, if_pos h]
      exact List.mem_cons.mpr (Or.inr hm)
    · have hm := ih x
      simp only [pickBy, if_neg h]
      rcases List.mem_cons.mp hm with h1 | h1
      · rw [h1]; exact List.mem_cons_self x (y :: tl)
      · exact List.mem_cons.mpr (Or.inr (List.mem_cons.mpr (Or.inr h1)))

theorem pickBy_spec {α : Type} (ltb : α → α → Prop) [DecidableRel ltb]
    (htrans : ∀ a b c, ltb a b → ltb b c → ltb a c)
    (hcross : ∀ a b c, ltb a b → ¬ ltb c b → ltb a c) :
    ∀ (l : List α) (x : α),
      (pickBy ltb x l = x ∧ ∀ y ∈ l, ¬ ltb y x) ∨
      (∃ l₁ l₂, l = l₁ ++ pickBy ltb x l :: l₂ ∧ ltb (pickBy ltb x l) x ∧
        (∀ y ∈ l₁, ltb (pickBy ltb x l) y) ∧ (∀ y ∈ l₂, ¬ ltb y (pickBy ltb x l))) := by
  intro l
  induction l with
  | nil =>
    intro x
    left
    exact ⟨by simp [pickBy], by intro y hy; simp at hy⟩
  | cons z tl ih =>
    intro x
    by_cases h : ltb z x
    · have hpick : pickBy ltb x (z :: tl) = pickBy ltb z tl := by
        simp [pickBy, if_pos h]
      rcases ih z with ⟨heq, hall⟩ | ⟨t₁, t₂, hsplit, hlt, hbefore, hafter⟩
      · right
        refine ⟨[], tl, ?_, ?_, ?_, ?_⟩
        · simp [hpick, heq]
        · rw [hpick, heq]; exact h
        · intro y hy; simp at hy
        · intro y hy; rw [hpick, heq]; exact hall y hy
      · right
        refine ⟨z :: t₁, t₂, ?_, ?_, ?_, ?_⟩
        · rw [hpick, List.cons_append]
          exact congrArg (z :: ·) hsplit
        · rw [hpick]; exact htrans _ _ _ hlt h
        · intro y hy
          rw [hpick]
          rcases List.mem_cons.mp hy with rfl | hy'
          · exact hlt
          · exact hbefore y hy'
        · intro y hy; rw [hpick]; exact hafter y hy
    · have hpick : pickBy ltb x (z :: tl) = pickBy ltb x tl := by
        simp [pickBy, if_neg h]
      rcases ih x with ⟨heq, hall⟩ | ⟨t₁, t₂, hsplit, hlt, hbefore, hafter⟩
      · left
        refine ⟨by rw [hpick, heq], ?_⟩
        intro y hy
        rcases List.mem_cons.mp hy with rfl | hy'
        · exact h
        · exact hall y hy'
      · right
        refine ⟨z :: t₁, t₂, ?_, ?_, ?_, ?_⟩
        · rw [hpick, List.cons_append]
          exact congrArg (z :: ·) hsplit
        · rw [hpick]; exact hlt
        · intro y hy
          rw [hpick]
          rcases List.mem_cons.mp hy with rfl | hy'
          · exact hcross _ _ _ hlt h
          · exact hbefore y hy'
        · intro y hy; rw [hpick]; exact hafter y hy

theorem pyMinBy_mem {α : Type} (ltb : α → α → Prop) [DecidableRel ltb]
    (l : List α) (m : α) (h : pyMinBy ltb l = some m) : m ∈ l := by
  cases l with
  | nil => simp [pyMinBy] at h
  | cons x xs =>
    have hm : pickBy ltb x xs = m := by simpa [pyMinBy] using h
    exact hm ▸ pickBy_mem ltb xs x

/-- Python `min` with a key: the result splits the list into a strictly
greater prefix (it is the first minimum) and a not-smaller suffix. -/
theorem pyMinBy_split {α : Type} (ltb : α → α → Prop) [DecidableRel ltb]
    (htrans : ∀ a b c, ltb a b → ltb b c → ltb a c)
    (hcross : ∀ a b c, ltb a b → ¬ ltb c b → ltb a c)
    (l : List α) (m : α) (h : pyMinBy ltb l = some m) :
    ∃ l₁ l₂, l = l₁ ++ m :: l₂ ∧ (∀ y ∈ l₁, ltb m y) ∧ (∀ y ∈ l₂, ¬ ltb y m) := by
  cases l with
  | nil => simp [pyMinBy] at h
  | cons x xs =>
    have hm : pickBy ltb x xs = m := by simpa [pyMinBy] using h
    rcases pickBy_spec ltb htrans hcross xs x with ⟨heq, hall⟩ | ⟨t₁, t₂, hs, hlt, hb, ha⟩
    · refine ⟨[], xs, ?_, ?_, ?_⟩
      · simp [← hm, heq]
      · intro y hy; simp at hy
      · intro y hy; rw [← hm, heq]; exact hall y hy
    · refine ⟨x :: t₁, t₂, ?_, ?_, ?_⟩
      · rw [List.cons_append, ← hm]
        exact congrArg (x :: ·) hs
      · intro y hy
        rcases List.mem_cons.mp hy with rfl | hy'
        · exact hm ▸ hlt
        · exact hm ▸ hb y hy'
      · intro y hy; exact hm ▸ ha y hy

/-! ## The priority orders satisfy the hypotheses of `pyMinBy_split` -/

theorem prioLt2_trans (a b c : ℕ × ℚ) (hab : prioLt2 a b) (hbc : prioLt2 b c) :
    prioLt2 a c := by
  unfold prioLt2 at *
  rcases hab with h1 | ⟨h1, h2⟩ <;> rcases hbc with g1 | ⟨g1, g2⟩
  · exact Or.inl (h1.trans g1)
  · exact Or.inl (lt_of_lt_of_eq h1 g1)
  · exact Or.inl (lt_of_eq_of_lt h1 g1)
  · exact Or.inr ⟨h1.trans g1, h2.trans g2⟩

theorem prioLt2_cross (a b c : ℕ × ℚ) (hab : prioLt2 a b) (hcb : ¬ prioLt2 c b) :
    prioLt2 a c := by
  unfold prioLt2 at *
  push_neg at hcb
  obtain ⟨hcb1, hcb2⟩ := hcb
  rcases hab with h1 | ⟨h1, h2⟩
  · exact Or.inl (lt_of_lt_of_le h1 hcb1)
  · rcases lt_or_eq_of_le hcb1 with hbc1 | hbc1
    · exact Or.inl (lt_of_eq_of_lt h1 hbc1)
    · exact Or.inr ⟨h1.trans hbc1, lt_of_lt_of_le h2 (hcb2 hbc1.symm)⟩

theorem prioLt3_trans (a b c : Bool × ℕ × ℚ) (hab : prioLt3 a b) (hbc : prioLt3 b c) :
    prioLt3 a c := by
  unfold prioLt3 at *
  rcases hab with ⟨h1, h2⟩ | ⟨h1, h2⟩ <;> rcases hbc with ⟨g1, g2⟩ | ⟨g1, g2⟩
  · rw [h2] at g1; exact absurd g1 (by simp)
  · exact Or.inl ⟨h1, g1 ▸ h2⟩
  · exact Or.inl ⟨h1.trans g1, g2⟩
  · exact Or.inr ⟨h1.trans g1, prioLt2_trans _ _ _ h2 g2⟩

theorem prioLt3_cross (a b c : Bool × ℕ × ℚ) (hab : prioLt3 a b) (hcb : ¬ prioLt3 c b) :
    prioLt3 a c := by
  unfold prioLt3 at *
  push_neg at hcb
  obtain ⟨hcb1, hcb2⟩ := hcb
  rcases hab with ⟨h1, h2⟩ | ⟨h1, h2⟩
  · cases hc1 : c.1 with
    | false => exact absurd h2 (hcb1 hc1)
    | true => exact Or.inl ⟨h1, rfl⟩
  · cases hb1 : b.1 with
    | true =>
      cases hc1 : c.1 with
      | false => exact absurd hb1 (hcb1 hc1)
      | true =>
        exact Or.inr ⟨h1.trans hb1, prioLt2_cross _ _ _ h2 (hcb2 (hc1.trans hb1.symm))⟩
    | false =>
      cases hc1 : c.1 with
      | true => exact Or.inl ⟨h1.trans hb1, rfl⟩
      | false =>
        exact Or.inr ⟨h1.trans hb1, prioLt2_cross _ _ _ h2 (hcb2 (hc1.trans hb1.symm))⟩

theorem imageLt_trans (d : Dir) (a b c : String) (hab : imageLt d a b)
    (hbc : imageLt d b c) : imageLt d a c :=
  prioLt2_trans _ _ _ hab hbc

theorem imageLt_cross (d : Dir) (a b c : String) (hab : imageLt d a b)
    (hcb : ¬ imageLt d c b) : imageLt d a c :=
  prioLt2_cross _ _ _ hab hcb

theorem videoLt_trans (d : Dir) (a b c : String) (hab : videoLt d a b)
    (hbc : videoLt d b c) : videoLt d a c :=
  prioLt3_trans _ _ _ hab hbc

theorem videoLt_cross (d : Dir) (a b c : String) (hab : videoLt d a b)
    (hcb : ¬ videoLt d c b) : videoLt d a c :=
  prioLt3_cross _ _ _ hab hcb

/-! ## Unpacking a duplicate group -/

theorem dupGroupsOf_elim {κ : Type} [DecidableEq κ] (keyOf : String → Option κ)
    (ltb : String → String → Prop) [DecidableRel ltb] (files : List String)
    (g : DupGroup κ) (hg : g ∈ dupGroupsOf keyOf ltb files) :
    g.members = files.filter (fun f => decide (keyOf f = some g.key)) ∧
      1 < g.members.length ∧
      pyMinBy ltb g.members = some g.keep ∧
      g.delete = g.members.filter (fun f => f ≠ g.keep) := by
  unfold dupGroupsOf at hg
  rw [List.mem_filterMap] at hg
  obtain ⟨kg, hkg, heq⟩ := hg
  unfold groupsOf at hkg
  rw [List.mem_map] at hkg
  obtain ⟨k, hkmem, hpair⟩ := hkg
  have hk1 : kg.1 = k := by rw [← hpair]
  have hk2 : kg.2 = files.filter (fun f => decide (keyOf f = some k)) := by rw [← hpair]
  by_cases hlen : 1 < kg.2.length
  · rw [if_pos hlen, Option.map_eq_some'] at heq
    obtain ⟨keep, hmin, hgeq⟩ := heq
    subst hgeq
    refine ⟨?_, hlen, hmin, rfl⟩
    rw [hk2, hk1]
  · rw [if_neg hlen] at heq
    exact absurd heq (by simp)

/-! ## String facts -/

theorem mk_append (a b : List Char) : String.mk a ++ String.mk b = String.mk (a ++ b) := rfl

theorem mk_toList (s : String) : String.mk s.toList = s := rfl

theorem toList_mk (a : List Char) : (String.mk a).toList = a := rfl

theorem strLen (s : String) : s.length = s.toList.length := rfl

theorem strLen_append (a b : String) : (a ++ b).length = a.length + b.length := by
  cases a with
  | mk la =>
    cases b with
    | mk lb =>
      show (String.mk (la ++ lb)).length = _
      rw [strLen, strLen, strLen, toList_mk, toList_mk, toList_mk, List.length_append]

theorem splitext_concat (s : String) : (splitext s).1 ++ (splitext s).2 = s := by
  unfold splitext
  split
  · show String.mk (s.toList.take _) ++ String.mk (s.toList.drop _) = s
    rw [mk_append, List.take_append_drop]
    exact mk_toList s
  · show s ++ "" = s
    cases s with
    | mk l =>
      show String.mk (l ++ []) = String.mk l
      rw [List.append_nil]

theorem splitext_length (s : String) : (splitext s).1.length + (splitext s).2.length = s.length := by
  rw [← strLen_append, splitext_concat]

/-! ## Soundness of the copy-suffix matcher -/

theorem copySuffixSplit_sound (cs ds : List Char) (h : copySuffixSplit cs = some ds) :
    ∃ o c, isOpenParen o = true ∧ isCloseParen c = true ∧ cs = o :: (ds ++ [c]) ∧
      ds ≠ [] ∧ ds.all Char.isDigit = true := by
  cases cs with
  | nil => simp [copySuffixSplit] at h
  | cons o rest =>
    simp only [copySuffixSplit] at h
    split at h
    · rename_i ho
      split at h
      · simp at h
      · rename_i c dsRev heq
        split at h
        · rename_i hcond
          have hds' : dsRev.reverse = ds := Option.some.inj h
          have hrest : rest = dsRev.reverse ++ [c] := by
            have h2 := congrArg List.reverse heq
            rw [List.reverse_reverse, List.reverse_cons] at h2
            exact h2
          rw [Bool.and_eq_true, Bool.and_eq_true] at hcond
          obtain ⟨⟨h1, h2⟩, h3⟩ := hcond
          refine ⟨o, c, ho, h1, ?_, ?_, ?_⟩
          · rw [← hds', hrest]
          · intro hne
            rw [hds', hne] at h2
            simp at h2
          · rw [← hds']; exact h3
        · simp at h
    · simp at h

theorem matchNum_sound :
    ∀ (cs b ds : List Char), matchNum cs = some (b, ds) →
      ∃ o c, isOpenParen o = true ∧ isCloseParen c = true ∧ cs = b ++ o :: (ds ++ [c]) ∧
        ds ≠ [] ∧ ds.all Char.isDigit = true := by
  intro cs
  induction cs with
  | nil => intro b ds h; simp [matchNum] at h
  | cons x rest ih =>
    intro b ds h
    unfold matchNum at h
    split at h
    · rename_i ds' hsp
      obtain ⟨hb, hds⟩ := Prod.mk.injEq .. ▸ Option.some.inj h
      obtain ⟨o, c, ho, hc, hcs, hne, hdig⟩ := copySuffixSplit_sound _ _ hsp
      refine ⟨o, c, ho, hc, ?_, ?_, ?_⟩
      · rw [← hb, ← hds, List.nil_append]; exact hcs
      · rw [← hds]; exact hne
      · rw [← hds]; exact hdig
    · rename_i hsp
      rw [Option.map_eq_some'] at h
      obtain ⟨p, hp, hpe⟩ := h
      obtain ⟨hb, hds⟩ := Prod.mk.injEq .. ▸ hpe
      obtain ⟨o, c, ho, hc, hcs, hne, hdig⟩ := ih p.1 p.2 (by rw [hp])
      refine ⟨o, c, ho, hc, ?_, ?_, ?_⟩
      · rw [← hb, ← hds, List.cons_append]
        exact congrArg (x :: ·) hcs
      · rw [← hds]; exact hne
      · rw [← hds]; exact hdig

theorem matchNumberPattern_sound (s b ds : String)
    (h : matchNumberPattern s = some (b, ds)) :
    ∃ o c, isOpenParen o = true ∧ isCloseParen c = true ∧
      s.toList = b.toList ++ o :: (ds.toList ++ [c]) ∧
      ds.toList ≠ [] ∧ ds.toList.all Char.isDigit = true := by
  unfold matchNumberPattern at h
  rw [Option.map_eq_some'] at h
  obtain ⟨p, hp, hpe⟩ := h
  obtain ⟨hb, hds⟩ := Prod.mk.injEq .. ▸ hpe
  obtain ⟨o, c, ho, hc, hcs, hne, hdig⟩ := matchNum_sound s.toList p.1 p.2 (by rw [hp])
  refine ⟨o, c, ho, hc, ?_, ?_, ?_⟩
  · rw [← hb, ← hds, toList_mk, toList_mk]; exact hcs
  · rw [← hds, toList_mk]; exact hne
  · rw [← hds, toList_mk]; exact hdig

theorem matchNumberPattern_length (s b ds : String)
    (h : matchNumberPattern s = some (b, ds)) :
    s.length = b.length + ds.length + 2 ∧ 1 ≤ ds.length := by
  obtain ⟨o, c, _, _, hcs, hne, _⟩ := matchNumberPattern_sound s b ds h
  constructor
  · rw [strLen, strLen, strLen, hcs]
    simp [List.length_append]
    omega
  · rw [strLen]
    cases hd : ds.toList with
    | nil => exact absurd hd hne
    | cons a l => simp [hd]

/-- A matched file is strictly longer than its computed origin (the origin
drops the parenthesized numeral but keeps base and extension). -/
theorem originOf_length (f o : String) (h : originOf f = some o) : o.length < f.length := by
  unfold originOf at h
  rw [Option.map_eq_some'] at h
  obtain ⟨p, hp, hpe⟩ := h
  obtain ⟨hlen, hds⟩ := matchNumberPattern_length (stemOf f) p.1 p.2 (by rw [hp])
  have hf : (stemOf f).length + (extOf f).length = f.length := splitext_length f
  have ho : o.length = p.1.length + (extOf f).length := by
    rw [← hpe, strLen_append]
  omega

/-! ## The unanchored search subsumes the anchored matcher -/

theorem takeWhile_exact (p : Char → Bool) (ds : List Char) (c : Char) (post : List Char)
    (hall : ds.all p = true) (hc : p c = false) :
    (ds ++ c :: post).takeWhile p = ds := by
  induction ds with
  | nil => simp [List.takeWhile_cons, hc]
  | cons a l ih =>
    rw [List.all_cons, Bool.and_eq_true] at hall
    obtain ⟨ha, hl⟩ := hall
    simp [List.takeWhile_cons, ha, ih hl]

theorem closeParen_not_digit (c : Char) (hc : isCloseParen c = true) : c.isDigit = false := by
  unfold isCloseParen at hc
  rw [Bool.or_eq_true] at hc
  rcases hc with h | h
  · rw [beq_iff_eq] at h; subst h; decide
  · rw [beq_iff_eq] at h; subst h; decide

theorem tokenAt_true (o : Char) (ds : List Char) (c : Char) (post : List Char)
    (ho : isOpenParen o = true) (hc : isCloseParen c = true)
    (hne : ds ≠ []) (hall : ds.all Char.isDigit = true) :
    tokenAt (o :: (ds ++ c :: post)) = true := by
  obtain ⟨a, l, rfl⟩ : ∃ a l, ds = a :: l := by
    cases ds with
    | nil => exact absurd rfl hne
    | cons a l => exact ⟨a, l, rfl⟩
  simp only [tokenAt]
  rw [takeWhile_exact _ _ _ _ hall (closeParen_not_digit c hc)]
  rw [List.drop_left]
  simp [ho, hc]

theorem searchToken_append (pre suf : List Char) (hs : tokenAt suf = true) :
    searchToken (pre ++ suf) = true := by
  induction pre with
  | nil =>
    cases suf with
    | nil => simp [tokenAt] at hs
    | cons c rest =>
      show searchToken (c :: rest) = true
      unfold searchToken
      rw [hs, Bool.true_or]
  | cons x xs ih =>
    show searchToken (x :: (xs ++ suf)) = true
    unfold searchToken
    rw [ih, Bool.or_true]

theorem toList_append (a b : String) : (a ++ b).toList = a.toList ++ b.toList := rfl

/-- Any stem matched by the anchored pattern of `process_directory` is also
found by the unanchored search of `find_best_file_to_keep`, whatever follows
the stem in the full file name. -/
theorem hasCopySuffix_of_match (stem rest b ds : String)
    (h : matchNumberPattern stem = some (b, ds)) :
    hasCopySuffix (stem ++ rest) = true := by
  obtain ⟨o, c, ho, hc, hcs, hne, hdig⟩ := matchNumberPattern_sound stem b ds h
  unfold hasCopySuffix
  have htl : (stem ++ rest).toList = b.toList ++ (o :: (ds.toList ++ c :: rest.toList)) := by
    rw [toList_append, hcs]
    simp [List.append_assoc]
  rw [htl]
  exact searchToken_append _ _ (tokenAt_true o ds.toList c rest.toList ho hc hne hdig)

/-! ## The copy-group fold keeps only files whose origin is the group key -/

theorem assocAppend_inv {κ : Type} [DecidableEq κ] (P : κ → String → Prop) (k : κ) (v : String)
    (hv : P k v) :
    ∀ (acc : List (κ × List String)), (∀ e ∈ acc, ∀ u ∈ e.2, P e.1 u) →
      ∀ e ∈ assocAppend acc k v, ∀ u ∈ e.2, P e.1 u := by
  intro acc
  induction acc with
  | nil =>
    intro _ e he u hu
    simp only [assocAppend, List.mem_singleton] at he
    subst he
    simp only [List.mem_singleton] at hu
    subst hu
    exact hv
  | cons hd tl ih =>
    intro hacc e he u hu
    obtain ⟨k', vs⟩ := hd
    simp only [assocAppend] at he
    split at he
    · rename_i hk
      rcases List.mem_cons.mp he with rfl | he'
      · rcases List.mem_append.mp hu with hu' | hu'
        · exact hacc (k', vs) (List.mem_cons_self _ _) u hu'
        · simp only [List.mem_singleton] at hu'
          subst hu'
          show P k' u
          rw [hk]; exact hv
      · exact hacc e (List.mem_cons.mpr (Or.inr he')) u hu
    · rcases List.mem_cons.mp he with rfl | he'
      · exact hacc (k', vs) (List.mem_cons_self _ _) u hu
      · exact ih (fun e he => hacc e (List.mem_cons.mpr (Or.inr he))) e he' u hu

theorem copyFold_inv (files : List String) :
    ∀ e ∈ copyFold files, ∀ u ∈ e.2, originOf u = some e.1 := by
  unfold copyFold
  suffices h : ∀ (fs : List String) (acc : List (String × List String)),
      (∀ e ∈ acc, ∀ u ∈ e.2, originOf u = some e.1) →
      ∀ e ∈ fs.foldl
          (fun acc f =>
            match originOf f with
            | some o => assocAppend acc o f
            | none => acc) acc,
        ∀ u ∈ e.2, originOf u = some e.1 by
    exact h files [] (by intro e he; simp at he)
  intro fs
  induction fs with
  | nil => intro acc hacc; simpa using hacc
  | cons f fs ih =>
    intro acc hacc
    rw [List.foldl_cons]
    cases ho : originOf f with
    | none => exact ih acc hacc
    | some o => exact ih _ (assocAppend_inv (fun k u => originOf u = some k) o f ho acc hacc)

theorem imageCopyGroups_origin (d : Dir) (g : CopyGroup) (hg : g ∈ imageCopyGroups d) :
    ∀ u ∈ g.copies, originOf u = some g.origin := by
  unfold imageCopyGroups at hg
  rw [List.mem_filterMap] at hg
  obtain ⟨p, hp, heq⟩ := hg
  split at heq
  · have hge := Option.some.inj heq
    subst hge
    exact fun u hu => copyFold_inv (imageFiles d) p hp u hu
  · simp at heq

/-! ## The interactive fold's invariant -/

/-- The key the interactive loop would file `f` under: the matched base and
`f`'s extension. -/
def interKeyOf (f : String) : Option (String × String) :=
  (matchNumberPattern (stemOf f)).map (fun p => (p.1, extOf f))

theorem assocGet_mem {κ β : Type} [DecidableEq κ] :
    ∀ (l : List (κ × β)) (k : κ) (v : β), assocGet l k = some v → (k, v) ∈ l := by
  intro l k v
  induction l with
  | nil => intro h; simp [assocGet] at h
  | cons hd tl ih =>
    intro h
    obtain ⟨k', v'⟩ := hd
    simp only [assocGet] at h
    split at h
    · rename_i hk
      have hv := Option.some.inj h
      exact List.mem_cons.mpr (Or.inl (by rw [← hk, hv]))
    · exact List.mem_cons.mpr (Or.inr (ih h))

theorem assocSet_mem {κ β : Type} [DecidableEq κ] :
    ∀ (l : List (κ × β)) (k : κ) (v : β) (e : κ × β),
      e ∈ assocSet l k v → e = (k, v) ∨ e ∈ l := by
  intro l k v
  induction l with
  | nil =>
    intro e he
    simp only [assocSet, List.mem_singleton] at he
    exact Or.inl he
  | cons hd tl ih =>
    intro e he
    obtain ⟨k', v'⟩ := hd
    simp only [assocSet] at he
    split at he
    · rename_i hk
      rcases List.mem_cons.mp he with rfl | he'
      · exact Or.inl (by rw [hk])
      · exact Or.inr (List.mem_cons.mpr (Or.inr he'))
    · rcases List.mem_cons.mp he with rfl | he'
      · exact Or.inr (List.mem_cons_self _ _)
      · rcases ih e he' with h | h
        · exact Or.inl h
        · exact Or.inr (List.mem_cons.mpr (Or.inr h))

/-- Invariant of the interactive image loop: every accumulated group's origin
is among the directory's image files, and every numbered file filed under a
key matches that key. -/
def InterInv (images : List String)
    (entries : List ((String × String) × (List String × List String))) : Prop :=
  ∀ e ∈ entries, (e.1.1 ++ e.1.2) ∈ images ∧ ∀ u ∈ e.2.2, interKeyOf u = some e.1

theorem interStep_inv (images : List String)
    (st : List ((String × String) × (List String × List String)) × List String)
    (f : String) (h : InterInv images st.1) : InterInv images (interStep images st f).1 := by
  unfold interStep
  split
  · rename_i bd heq
    split
    · rename_i hin
      intro e he
      rcases assocSet_mem _ _ _ e he with rfl | hmem
      · constructor
        · exact hin
        · intro u hu
          unfold interNewVal at hu
          rcases List.mem_append.mp hu with hu' | hu'
          · cases hget : assocGet st.1 (bd.1, extOf f) with
            | none => rw [hget] at hu'; simp at hu'
            | some cur =>
              rw [hget] at hu'
              exact ((h (⟨(bd.1, extOf f), cur⟩) (assocGet_mem _ _ _ hget)).2) u hu'
          · simp only [List.mem_singleton] at hu'
            subst hu'
            unfold interKeyOf
            rw [heq]
            rfl
      · exact h e hmem
    · exact h
  · exact h

theorem interFold_inv (images : List String) :
    ∀ (fs : List String)
      (st : List ((String × String) × (List String × List String)) × List String),
      InterInv images st.1 → InterInv images (fs.foldl (interStep images) st).1 := by
  intro fs
  induction fs with
  | nil => intro st h; simpa using h
  | cons f fs ih =>
    intro st h
    rw [List.foldl_cons]
    exact ih (interStep images st f) (interStep_inv images st f h)

theorem interGroups_inv (d : Dir) : InterInv (imageFiles d) (interGroups d) := by
  unfold interGroups interCopyFold
  exact interFold_inv (imageFiles d) (imageFiles d) ([], [])
    (by intro e he; simp at he)

/-- A file can never be keyed under its own name: the matched stem carries a
parenthesized numeral the origin lacks. -/
theorem interKey_self_false (o : String) (k : String × String)
    (hk : interKeyOf o = some k) (ho : o = k.1 ++ k.2) : False := by
  unfold interKeyOf at hk
  rw [Option.map_eq_some'] at hk
  obtain ⟨p, hp, hpe⟩ := hk
  obtain ⟨h1, h2⟩ := Prod.mk.injEq .. ▸ hpe
  obtain ⟨hlen, hds⟩ := matchNumberPattern_length (stemOf o) p.1 p.2 (by rw [hp])
  have hsp : (stemOf o).length + (extOf o).length = o.length := splitext_length o
  have holen : o.length = k.1.length + k.2.length := by rw [ho, strLen_append]
  rw [← h1, ← h2] at holen
  omega

/-! ## `list(set(...))` yields pairwise-distinct entries -/

theorem pySetList_aux (l : List String) :
    ∀ acc : List String, acc.Nodup →
      (l.foldl (fun acc x => if x ∈ acc then acc else acc ++ [x]) acc).Nodup := by
  induction l with
  | nil => intro acc h; simpa using h
  | cons x xs ih =>
    intro acc h
    rw [List.foldl_cons]
    by_cases hx : x ∈ acc
    · rw [if_pos hx]; exact ih acc h
    · rw [if_neg hx]
      refine ih _ ?_
      rw [List.nodup_append]
      refine ⟨h, List.nodup_singleton x, ?_⟩
      intro a ha hax
      simp only [List.mem_singleton] at hax
      subst hax
      exact hx ha

theorem pySetList_nodup (l : List String) : (pySetList l).Nodup :=
  pySetList_aux l [] List.nodup_nil

/-! ## Group invariants -/

theorem exists_second (l : List String) (hnd : l.Nodup) (hlen : 1 < l.length)
    (keep : String) : ∃ y ∈ l, y ≠ keep := by
  cases l with
  | nil => simp at hlen
  | cons a tl =>
    cases tl with
    | nil => simp at hlen
    | cons b tl2 =>
      by_cases ha : a = keep
      · refine ⟨b, List.mem_cons.mpr (Or.inr (List.mem_cons_self _ _)), ?_⟩
        intro hb
        exact (List.nodup_cons.mp hnd).1 (by rw [ha, ← hb]; exact List.mem_cons_self _ _)
      · exact ⟨a, List.mem_cons_self _ _, ha⟩

theorem dupGroups_invariants {κ : Type} [DecidableEq κ] (keyOf : String → Option κ)
    (ltb : String → String → Prop) [DecidableRel ltb] (files : List String)
    (hnf : files.Nodup) (g : DupGroup κ) (hg : g ∈ dupGroupsOf keyOf ltb files) :
    g.keep ∈ g.members ∧ (∀ f, f ∈ g.delete ↔ f ∈ g.members ∧ f ≠ g.keep) ∧
      g.delete ≠ [] ∧ 2 ≤ g.members.length := by
  obtain ⟨hmem, hlen, hmin, hdel⟩ := dupGroupsOf_elim keyOf ltb files g hg
  have hnd : g.members.Nodup := hmem ▸ hnf.filter _
  have hkeep : g.keep ∈ g.members := pyMinBy_mem ltb g.members g.keep hmin
  have hiff : ∀ f, f ∈ g.delete ↔ f ∈ g.members ∧ f ≠ g.keep := by
    intro f
    rw [hdel, List.mem_filter]
    simp only [decide_eq_true_eq]
  have hne : g.delete ≠ [] := by
    obtain ⟨y, hy, hyk⟩ := exists_second g.members hnd hlen g.keep
    intro hnil
    have hmem2 : y ∈ g.delete := (hiff y).mpr ⟨hy, hyk⟩
    rw [hnil] at hmem2
    simp at hmem2
  exact ⟨hkeep, hiff, hne, hlen⟩

theorem imageFiles_nodup (d : Dir) (h : d.listing.Nodup) : (imageFiles d).Nodup :=
  h.filter _

theorem videoFiles_nodup (d : Dir) (h : d.listing.Nodup) : (videoFiles d).Nodup :=
  h.filter _

/-! ## Video key components -/

theorem videoKeyOf_fst (d : Dir) (f : String) :
    (videoKeyOf d f).1 = divRound2 (d.size f : ℤ) 1048576 := by
  unfold videoKeyOf
  cases d.probe f <;> simp

theorem videoKeyOf_probe_none (d : Dir) (f : String) :
    (videoKeyOf d f).2.1 = none ↔ d.probe f = none := by
  unfold videoKeyOf
  cases d.probe f <;> simp

theorem videoDup_key_of_mem (d : Dir) (g : DupGroup (ℤ × Option ℤ × Option ℤ))
    (hg : g ∈ videoDupGroups d) (a : String) (ha : a ∈ g.members) :
    videoKeyOf d a = g.key := by
  obtain ⟨hmem, _, _, _⟩ := dupGroupsOf_elim (fun f => some (videoKeyOf d f)) (videoLt d)
    (videoFiles d) g hg
  rw [hmem] at ha
  have h2 := (List.mem_filter.mp ha).2
  rw [decide_eq_true_eq] at h2
  exact Option.some.inj h2

/-! ## Cross-type groups -/

theorem crossGroups_elim (d : Dir) (g : CrossGroup) (hg : g ∈ crossGroups d) :
    ∃ fs : List String,
      g.videos = fs.filter (fun f => decide (lowerExt f ∈ videoExts)) ∧
      g.images = fs.filter (fun f => decide (lowerExt f ∈ imageExts)) ∧
      fs.any (fun f => decide (lowerExt f ∈ videoExts)) = true ∧
      fs.any (fun f => decide (lowerExt f ∈ imageExts)) = true := by
  unfold crossGroups at hg
  rw [List.mem_filterMap] at hg
  obtain ⟨kg, hkg, heq⟩ := hg
  split at heq
  · rename_i hcond
    have hge := Option.some.inj heq
    subst hge
    rw [Bool.and_eq_true] at hcond
    exact ⟨kg.2, rfl, rfl, hcond.1, hcond.2⟩
  · simp at heq

theorem extSets_disjoint (e : String) (hv : e ∈ videoExts) (hi : e ∈ imageExts) : False := by
  simp only [videoExts, List.mem_cons, List.not_mem_nil, or_false] at hv
  rcases hv with rfl | rfl | rfl | rfl | rfl | rfl | rfl <;> exact absurd hi (by decide)

/-! ## Frame-rate parsing -/

theorem digits_no_slash (ds : List Char) (h : ds.all Char.isDigit = true) : '/' ∉ ds := by
  intro hin
  rw [List.all_eq_true] at h
  exact absurd (h '/' hin) (by decide)

theorem parsePyIntL_no_slash (cs : List Char) (n : ℤ) (h : parsePyIntL cs = some n) :
    '/' ∉ cs := by
  unfold parsePyIntL at h
  split at h
  · rename_i ds
    split at h
    · rename_i hcond
      rw [Bool.and_eq_true] at hcond
      intro hin
      rcases List.mem_cons.mp hin with he | hin'
      · exact absurd he (by decide)
      · exact digits_no_slash ds hcond.2 hin'
    · simp at h
  · rename_i ds
    split at h
    · rename_i hcond
      rw [Bool.and_eq_true] at hcond
      intro hin
      rcases List.mem_cons.mp hin with he | hin'
      · exact absurd he (by decide)
      · exact digits_no_slash ds hcond.2 hin'
    · simp at h
  · split at h
    · rename_i hcond
      rw [Bool.and_eq_true] at hcond
      exact digits_no_slash _ hcond.2
    · simp at h

theorem splitOnChar_single (c : Char) (b : List Char) (hb : c ∉ b) :
    splitOnChar c b = [b] := by
  induction b with
  | nil => rfl
  | cons x xs ih =>
    have hx : ¬((x == c) = true) := by
      rw [beq_iff_eq]
      intro hxc
      exact hb (hxc ▸ List.mem_cons_self x xs)
    simp only [splitOnChar]
    rw [if_neg hx, ih (fun hin => hb (List.mem_cons.mpr (Or.inr hin)))]

theorem splitOnChar_append (c : Char) (a b : List Char) (ha : c ∉ a) :
    splitOnChar c (a ++ c :: b) = a :: splitOnChar c b := by
  induction a with
  | nil =>
    simp only [List.nil_append, splitOnChar]
    rw [if_pos (by rw [beq_iff_eq])]
  | cons x xs ih =>
    have hx : ¬((x == c) = true) := by
      rw [beq_iff_eq]
      intro hxc
      exact ha (hxc ▸ List.mem_cons_self x xs)
    simp only [List.cons_append, splitOnChar, List.append_eq]
    rw [if_neg hx, ih (fun hin => ha (List.mem_cons.mpr (Or.inr hin)))]

/-! ## Concrete example directories used as witnesses and counterexamples -/

/-- Two images with identical fingerprints, one carrying a copy suffix in a
shorter name. -/
def exDir1 : Dir :=
  { listing := ["a(1).jpg", "photo.jpg"], isFile := fun _ => true, size := fun _ => 100,
    dims := fun _ => some (8, 6), mtime := fun _ => 0, probe := fun _ => none }

def exGroup1 : DupGroup (ℕ × ℕ × ℕ) :=
  { key := (100, 8, 6), members := ["a(1).jpg", "photo.jpg"], keep := "a(1).jpg",
    delete := ["photo.jpg"] }

/-- A lone numbered copy whose origin does not exist in the directory. -/
def exDir4 : Dir :=
  { listing := ["b（2）.jpg"], isFile := fun _ => true, size := fun _ => 3,
    dims := fun _ => some (1, 1), mtime := fun _ => 0, probe := fun _ => none }

/-- A numbered copy together with its origin. -/
def exDirC4 : Dir :=
  { listing := ["img.jpg", "img（1）.jpg"], isFile := fun _ => true, size := fun _ => 9,
    dims := fun _ => some (2, 2), mtime := fun _ => 0, probe := fun _ => none }

def exEntryC4 : (String × String) × (List String × List String) :=
  (("img", ".jpg"), (["img.jpg", "img（1）.jpg"], ["img（1）.jpg"]))

/-- Two same-size videos whose probes both fail. -/
def exDir5 : Dir :=
  { listing := ["v1.mp4", "v2.mp4"], isFile := fun _ => true, size := fun _ => 1048576,
    dims := fun _ => none, mtime := fun _ => 0, probe := fun _ => none }

def exGroup5 : DupGroup (ℤ × Option ℤ × Option ℤ) :=
  { key := (100, none, none), members := ["v1.mp4", "v2.mp4"], keep := "v1.mp4",
    delete := ["v2.mp4"] }

/-- An image and a video sharing the stem `event`. -/
def exDir7 : Dir :=
  { listing := ["event.jpg", "event.mp4"], isFile := fun _ => true, size := fun _ => 7,
    dims := fun _ => some (1, 1), mtime := fun _ => 0, probe := fun _ => none }

def exGroup7 : CrossGroup := { videos := ["event.mp4"], images := ["event.jpg"] }

/-- `a(1).jpg` is both a fingerprint duplicate of `a.jpg` and a numbered copy
of it, so it is a delete candidate of two different passes. -/
def exDir8 : Dir :=
  { listing := ["a.jpg", "a(1).jpg"], isFile := fun _ => true, size := fun _ => 100,
    dims := fun _ => some (8, 6), mtime := fun _ => 0, probe := fun _ => none }

/-! ## The claims -/

/-- C1, counterexample: the claim says every fingerprint-based duplicate
group (image or video) keeps the minimum under the ascending tuple
(has_copy_suffix, filename length, mtime).  In `exDir1` the two images form
one fingerprint group and the code keeps `a(1).jpg` (shorter name), while the
claimed priority tuple — the one `find_best_file_to_keep` implements — would
keep `photo.jpg`, which has no copy suffix.  The image pass (line 135) sorts
only by (filename length, mtime). -/
theorem claimC1_counterexample :
    (imageDupGroups exDir1).map (fun g => g.keep) = ["a(1).jpg"] ∧
    (imageDupGroups exDir1).map (fun g => findBestFileToKeep exDir1 g.members) =
      [some "photo.jpg"] ∧
    ("a(1).jpg" : String) ≠ "photo.jpg" := by
  refine ⟨by decide, by decide, by decide⟩

/-- C1, amended: the kept member of a video-fingerprint group is the minimum
of its members under the ascending tuple (has_copy_suffix, filename length,
mtime); the kept member of an image-fingerprint group is the minimum under
(filename length, mtime) only.  In both passes, when all keys tie the
first-encountered member of the input list is kept: every member listed
before the keep has a strictly greater priority and every member after it
has a priority at least the keep's. -/
theorem claimC1_amended (d : Dir) :
    (∀ g ∈ imageDupGroups d,
      ∃ l₁ l₂, g.members = l₁ ++ g.keep :: l₂ ∧
        (∀ y ∈ l₁, imageLt d g.keep y) ∧ (∀ y ∈ l₂, ¬ imageLt d y g.keep)) ∧
    (∀ g ∈ videoDupGroups d,
      ∃ l₁ l₂, g.members = l₁ ++ g.keep :: l₂ ∧
        (∀ y ∈ l₁, videoLt d g.keep y) ∧ (∀ y ∈ l₂, ¬ videoLt d y g.keep)) := by
  constructor
  · intro g hg
    obtain ⟨_, _, hmin, _⟩ := dupGroupsOf_elim (imgKeyOf d) (imageLt d) (imageFiles d) g hg
    exact pyMinBy_split (imageLt d) (imageLt_trans d) (imageLt_cross d) g.members g.keep hmin
  · intro g hg
    obtain ⟨_, _, hmin, _⟩ := dupGroupsOf_elim (fun f => some (videoKeyOf d f)) (videoLt d)
      (videoFiles d) g hg
    exact pyMinBy_split (videoLt d) (videoLt_trans d) (videoLt_cross d) g.members g.keep hmin

/-- C1, witness: the amended statement applied to the image group of
`exDir1`. -/
theorem claimC1_witness :
    exGroup1 ∈ imageDupGroups exDir1 ∧
    (∃ l₁ l₂, exGroup1.members = l₁ ++ exGroup1.keep :: l₂ ∧
      (∀ y ∈ l₁, imageLt exDir1 exGroup1.keep y) ∧
      (∀ y ∈ l₂, ¬ imageLt exDir1 y exGroup1.keep)) :=
  ⟨by decide, (claimC1_amended exDir1).1 exGroup1 (by decide)⟩

/-- C2: for every produced duplicate group (image or video), the keep file is
one of the group's members, the delete list holds exactly the members other
than the keep, the delete list is non-empty, and a group is only materialized
with at least two members.  The hypothesis that the directory listing has no
repeated name is what `os.listdir` guarantees. -/
theorem claimC2_theorem (d : Dir) (hnd : d.listing.Nodup) :
    (∀ g ∈ imageDupGroups d,
      g.keep ∈ g.members ∧ (∀ f, f ∈ g.delete ↔ f ∈ g.members ∧ f ≠ g.keep) ∧
        g.delete ≠ [] ∧ 2 ≤ g.members.length) ∧
    (∀ g ∈ videoDupGroups d,
      g.keep ∈ g.members ∧ (∀ f, f ∈ g.delete ↔ f ∈ g.members ∧ f ≠ g.keep) ∧
        g.delete ≠ [] ∧ 2 ≤ g.members.length) := by
  constructor
  · intro g hg
    exact dupGroups_invariants (imgKeyOf d) (imageLt d) (imageFiles d)
      (imageFiles_nodup d hnd) g hg
  · intro g hg
    exact dupGroups_invariants (fun f => some (videoKeyOf d f)) (videoLt d) (videoFiles d)
      (videoFiles_nodup d hnd) g hg

/-- C2, witness: the invariants applied to the image group of `exDir1`. -/
theorem claimC2_witness :
    exDir1.listing.Nodup ∧ exGroup1 ∈ imageDupGroups exDir1 ∧
    exGroup1.keep ∈ exGroup1.members ∧ exGroup1.delete ≠ [] :=
  ⟨by decide, by decide,
    ((claimC2_theorem exDir1 (by decide)).1 exGroup1 (by decide)).1,
    ((claimC2_theorem exDir1 (by decide)).1 exGroup1 (by decide)).2.2.1⟩

/-- C3, counterexample: the claim says `"sunset (1).jpg"` maps to the origin
`"sunset.jpg"`.  The lazy base group of `^(.*?)[（(](\d+)[）)]$` keeps the
space before the parenthesis, so the computed origin is `"sunset .jpg"`. -/
theorem claimC3_counterexample :
    originOf "sunset (1).jpg" = some "sunset .jpg" ∧
    ("sunset .jpg" : String) ≠ "sunset.jpg" := by
  refine ⟨by decide, by decide⟩

/-- C3, amended: `"sunset（2）.jpg"` maps to origin `"sunset.jpg"` and
`"sunset(final).jpg"` matches no origin, as claimed; `"sunset (1).jpg"` is
matched as a copy, but of origin `"sunset .jpg"` — everything before the
parenthesized numeral, including the space, is kept as the base. -/
theorem claimC3_amended :
    originOf "sunset (1).jpg" = some "sunset .jpg" ∧
    originOf "sunset（2）.jpg" = some "sunset.jpg" ∧
    originOf "sunset(final).jpg" = none := by
  refine ⟨by decide, by decide, by decide⟩

/-- C4, counterexample: the claim says a copy group whose origin does not
exist is not emitted.  In the non-interactive script, a directory holding
only `b（2）.jpg` still yields a copy group with origin `b.jpg`, a file not in
the listing — line 150 only requires the origin string to be non-empty. -/
theorem claimC4_counterexample :
    (imageCopyGroups exDir4).map (fun g => g.origin) = ["b.jpg"] ∧
    ("b.jpg" : String) ∉ exDir4.listing := by
  refine ⟨by decide, by decide⟩

/-- C4, amended: in the interactive variant every emitted copy group's origin
is among the directory's image files and never among the group's numbered
copies; the non-interactive variant emits a group for any matched copy
without checking that the origin exists, though there too the origin is
never contained in the group's copies list. -/
theorem claimC4_amended (d : Dir) :
    (∀ g ∈ imageCopyGroups d, g.origin ∉ g.copies) ∧
    (∀ e ∈ interGroups d, (e.1.1 ++ e.1.2) ∈ imageFiles d ∧ (e.1.1 ++ e.1.2) ∉ e.2.2) := by
  constructor
  · intro g hg hmem
    have horig := imageCopyGroups_origin d g hg g.origin hmem
    exact absurd (originOf_length g.origin g.origin horig) (lt_irrefl _)
  · intro e he
    have hinv := interGroups_inv d e he
    refine ⟨hinv.1, ?_⟩
    intro hmem
    exact interKey_self_false (e.1.1 ++ e.1.2) e.1 (hinv.2 _ hmem) rfl

/-- C4, witness: the interactive invariant applied to the group of
`exDirC4`. -/
theorem claimC4_witness :
    exEntryC4 ∈ interGroups exDirC4 ∧
    (exEntryC4.1.1 ++ exEntryC4.1.2) ∈ imageFiles exDirC4 ∧
    (exEntryC4.1.1 ++ exEntryC4.1.2) ∉ exEntryC4.2.2 :=
  ⟨by decide, ((claimC4_amended exDirC4).2 exEntryC4 (by decide)).1,
    ((claimC4_amended exDirC4).2 exEntryC4 (by decide)).2⟩

/-- C5: a video whose metadata probe fails gets the fingerprint
`(size_mb, None, None)`; two probe-failed videos share a fingerprint exactly
when their rounded sizes are equal; and all members of one video duplicate
group agree both on whether their probe failed and on their rounded size, so
a probe-failed video never shares a group with a successfully probed one. -/
theorem claimC5_theorem (d : Dir) :
    (∀ f, d.probe f = none →
      videoKeyOf d f = (divRound2 (d.size f : ℤ) 1048576, none, none)) ∧
    (∀ a b, d.probe a = none → d.probe b = none →
      (videoKeyOf d a = videoKeyOf d b ↔
        divRound2 (d.size a : ℤ) 1048576 = divRound2 (d.size b : ℤ) 1048576)) ∧
    (∀ g ∈ videoDupGroups d, ∀ a ∈ g.members, ∀ b ∈ g.members,
      (d.probe a = none ↔ d.probe b = none) ∧
      divRound2 (d.size a : ℤ) 1048576 = divRound2 (d.size b : ℤ) 1048576) := by
  refine ⟨?_, ?_, ?_⟩
  · intro f hf
    unfold videoKeyOf
    rw [hf]
  · intro a b ha hb
    simp [videoKeyOf, ha, hb]
  · intro g hg a ha b hb
    have hka := videoDup_key_of_mem d g hg a ha
    have hkb := videoDup_key_of_mem d g hg b hb
    have hkey : videoKeyOf d a = videoKeyOf d b := by rw [hka, hkb]
    constructor
    · constructor
      · intro hpa
        rw [← videoKeyOf_probe_none d b]
        rw [← hkey]
        exact (videoKeyOf_probe_none d a).mpr hpa
      · intro hpb
        rw [← videoKeyOf_probe_none d a]
        rw [hkey]
        exact (videoKeyOf_probe_none d b).mpr hpb
    · rw [← videoKeyOf_fst d a, ← videoKeyOf_fst d b, hkey]

/-- C5, witness: the group-level statement applied to the two probe-failed
videos of `exDir5`. -/
theorem claimC5_witness :
    exGroup5 ∈ videoDupGroups exDir5 ∧
    (exDir5.probe "v1.mp4" = none ↔ exDir5.probe "v2.mp4" = none) ∧
    divRound2 (exDir5.size "v1.mp4" : ℤ) 1048576 =
      divRound2 (exDir5.size "v2.mp4" : ℤ) 1048576 :=
  ⟨by decide,
    ((claimC5_theorem exDir5).2.2 exGroup5 (by decide) "v1.mp4" (by decide) "v2.mp4"
      (by decide)).1,
    ((claimC5_theorem exDir5).2.2 exGroup5 (by decide) "v1.mp4" (by decide) "v2.mp4"
      (by decide)).2⟩

/-- C6, counterexample: the claim says the keep-selector's `has_copy_suffix`
agrees with the anchored rule of §4.4, under which `photo(1)x` is not a copy.
The selector uses an unanchored `re.search` over the whole base name, so
`photo(1)x.mp4` is treated as carrying a copy suffix even though the
anchored matcher rejects the stem. -/
theorem claimC6_counterexample :
    hasCopySuffix "photo(1)x.mp4" = true ∧ matchNumberPattern "photo(1)x" = none := by
  refine ⟨by decide, by decide⟩

/-- C6, amended: `has_copy_suffix` searches for a parenthesized positive
integer anywhere in the base name, unanchored: every stem the §4.4 matcher
accepts is flagged (whatever follows the stem), but so are names like
`photo(1)x` that §4.4 rejects; `photo(v2)` is rejected by both. -/
theorem claimC6_amended :
    hasCopySuffix "photo(1)x.mp4" = true ∧ matchNumberPattern "photo(1)x" = none ∧
    hasCopySuffix "photo(v2).mp4" = false ∧ matchNumberPattern "photo(v2)" = none ∧
    (∀ stem rest b ds : String, matchNumberPattern stem = some (b, ds) →
      hasCopySuffix (stem ++ rest) = true) := by
  refine ⟨by decide, by decide, by decide, by decide, ?_⟩
  intro stem rest b ds h
  exact hasCopySuffix_of_match stem rest b ds h

/-- C6, witness: the containment direction applied to the stem `pic（3）`
followed by the extension `.jpg`. -/
theorem claimC6_witness :
    matchNumberPattern "pic（3）" = some ("pic", "3") ∧
    hasCopySuffix ("pic（3）" ++ ".jpg") = true :=
  ⟨by decide, claimC6_amended.2.2.2.2 "pic（3）" ".jpg" "pic" "3" (by decide)⟩

/-- C7: every cross-type group's delete candidates are exactly its image
files (`main` deletes `group['images']`); such a group holds at least one
video and at least one image, and no video file ever appears among the
group's images, because the image and video extension sets are disjoint. -/
theorem claimC7_theorem (d : Dir) :
    ∀ g ∈ crossGroups d,
      crossDeleteCandidates g = g.images ∧ g.videos ≠ [] ∧ g.images ≠ [] ∧
      ∀ v ∈ g.videos, v ∉ g.images := by
  intro g hg
  obtain ⟨fs, hv, hi, hav, hai⟩ := crossGroups_elim d g hg
  refine ⟨rfl, ?_, ?_, ?_⟩
  · rw [hv]
    rw [List.any_eq_true] at hav
    obtain ⟨f, hf, hpf⟩ := hav
    exact List.ne_nil_of_mem (List.mem_filter.mpr ⟨hf, hpf⟩)
  · rw [hi]
    rw [List.any_eq_true] at hai
    obtain ⟨f, hf, hpf⟩ := hai
    exact List.ne_nil_of_mem (List.mem_filter.mpr ⟨hf, hpf⟩)
  · intro v hvm hvi
    rw [hv] at hvm
    rw [hi] at hvi
    have h1 := (List.mem_filter.mp hvm).2
    have h2 := (List.mem_filter.mp hvi).2
    rw [decide_eq_true_eq] at h1 h2
    exact extSets_disjoint _ h1 h2

/-- C7, witness: the statement applied to the `event.mp4` / `event.jpg`
group of `exDir7`. -/
theorem claimC7_witness :
    exGroup7 ∈ crossGroups exDir7 ∧
    crossDeleteCandidates exGroup7 = exGroup7.images ∧
    ("event.mp4" : String) ∈ exGroup7.videos ∧ "event.mp4" ∉ exGroup7.images :=
  ⟨by decide, (claimC7_theorem exDir7 exGroup7 (by decide)).1, by decide,
    (claimC7_theorem exDir7 exGroup7 (by decide)).2.2.2 "event.mp4" (by decide)⟩

/-- C8, counterexample: the claim says each file path occurs at most once in
a directory's flattened deletion plan.  The non-interactive `main` has no
flattened plan: it runs the four category passes independently, and in
`exDir8` the file `a(1).jpg` is a delete candidate of both the
image-fingerprint pass and the copy pass, so the sequence of attempted
removals lists it twice. -/
theorem claimC8_counterexample :
    cleanerDeletionSequence exDir8 = ["a(1).jpg", "a(1).jpg"] ∧
    ¬ (cleanerDeletionSequence exDir8).Nodup := by
  refine ⟨by decide, by decide⟩

/-- C8, amended: the interactive variant's per-directory flattened deletion
list (`list(set(image_numbered_files_to_delete + video_files_to_delete))`)
contains each path at most once — the per-pass candidate lists are unioned;
the non-interactive variant has no flattened plan and a path may be targeted
by more than one of its category passes. -/
theorem claimC8_amended (d : Dir) : (interFilesToDelete d).Nodup :=
  pySetList_nodup (interNumbered d ++ videoDeletes d)

/-- C8, witness: the deduplicated plan of `exDirC4` is duplicate-free. -/
theorem claimC8_witness : (interFilesToDelete exDirC4).Nodup :=
  claimC8_amended exDirC4

/-- C9: a `r_frame_rate` of the form `num/denom` with zero denominator yields
frame rate 0 rather than raising (`num / denom if denom != 0 else 0`); a
malformed string (no slash, too many fields, non-numeric parts) likewise
yields 0 through the `except (ValueError, ZeroDivisionError)` arm; and a
frame-rate string never turns a probe with a present duration into a
failure. -/
theorem claimC9_theorem :
    (∀ a b : List Char, '/' ∉ a → parsePyIntL b = some 0 →
      parseFrameRate (String.mk (a ++ '/' :: b)) = 0) ∧
    parseFrameRate "abc" = 0 ∧ parseFrameRate "24/1/1" = 0 ∧ parseFrameRate "" = 0 ∧
    (∀ st : StreamInfo, ∀ q : ℚ, st.duration = some q →
      getVideoInfo st = some (q, parseFrameRate (st.rFrameRate.getD "0/1"))) := by
  refine ⟨?_, by decide, by decide, by decide, ?_⟩
  · intro a b ha hb
    unfold parseFrameRate
    rw [toList_mk, splitOnChar_append '/' a b ha,
      splitOnChar_single '/' b (parsePyIntL_no_slash b 0 hb)]
    cases hpa : parsePyIntL a with
    | none => simp [hpa, hb]
    | some n => simp [hpa, hb]
  · intro st q hq
    unfold getVideoInfo
    rw [hq]

/-- C9, witness: the zero-denominator case at the concrete string `30/0`. -/
theorem claimC9_witness :
    ('/' ∉ ("30".toList)) ∧ parsePyIntL "0".toList = some 0 ∧
    parseFrameRate (String.mk ("30".toList ++ '/' :: "0".toList)) = 0 :=
  ⟨by decide, by decide, claimC9_theorem.1 "30".toList "0".toList (by decide) (by decide)⟩

/-- C10: a trailing parenthesized integer with mismatched parenthesis widths
still matches the copy pattern — the opening and closing parentheses are
independent character classes `[（(]` and `[）)]` — so both `photo(1）` and
`photo（1)` match base `photo`, and the corresponding files map to the origin
`photo.jpg`. -/
theorem claimC10_theorem :
    matchNumberPattern "photo(1）" = some ("photo", "1") ∧
    matchNumberPattern "photo（1)" = some ("photo", "1") ∧
    originOf "photo(1）.jpg" = some "photo.jpg" ∧
    originOf "photo（1).jpg" = some "photo.jpg" := by
  refine ⟨by decide, by decide, by decide, by decide⟩

end MediaCleaner

